import Mathlib

/-!
Shallow embedding of the TOC data model and validation layer of the
rust-discid binding (src/lib.rs), together with a spec-derived model of
the native libdiscid engine at the boundary described in the spec.

Conventions:
  * Rust `i32` (`c_int`) arithmetic is modelled over `Int` with explicit
    two's-complement wrapping (`wrap32`) exactly where the release-mode
    Rust code wraps; casts `as usize` are modelled by `toUsize`.
  * fallible operations return explicit result types; Rust panics
    (slice-index / `copy_from_slice` length / array-index failures and
    `expect`) are modelled by dedicated `panicked` / `aborted` / `oob`
    result constructors.
  * Strings are modelled down to `List Char`; Rust `str::split(' ')` is
    `splitSp`, `i32::from_str` is `parseI32`, and the decimal rendering
    used by message formatting and by the engine's TOC serialization is
    `intToDecChars`.
-/

set_option maxHeartbeats 1000000

namespace Discid

/-! ## Machine-integer helpers -/

def i32min : Int := -(2 ^ 31)

def i32max : Int := 2 ^ 31 - 1

/-- Two's-complement wrap of an integer into the `i32` range, the
release-mode behaviour of overflowing Rust `i32` arithmetic. -/
def wrap32 (x : Int) : Int := (x + 2 ^ 31) % 2 ^ 32 - 2 ^ 31

/-- The Rust cast `x as usize` applied to an `i32` value on a 64-bit
target: sign extension reinterpreted as an unsigned 64-bit value. -/
def toUsize (x : Int) : Nat := (x % 2 ^ 64).toNat

/-! ## Rust `i32::from_str` (used by `str::parse::<c_int>()`) -/

inductive IntErrKind where
  | empty
  | invalidDigit
  | posOverflow
  | negOverflow
deriving DecidableEq

/-- The `Display` text of the corresponding `std::num::ParseIntError`. -/
def parseIntErrMsg : IntErrKind → String
  | .empty => "cannot parse integer from empty string"
  | .invalidDigit => "invalid digit found in string"
  | .posOverflow => "number too large to fit in target type"
  | .negOverflow => "number too small to fit in target type"

def digitVal (c : Char) : Option Nat :=
  if 48 ≤ c.toNat ∧ c.toNat ≤ 57 then some (c.toNat - 48) else none

def parseDigitsPos : List Char → Int → Except IntErrKind Int
  | [], acc => .ok acc
  | c :: cs, acc =>
    match digitVal c with
    | none => .error .invalidDigit
    | some d =>
      if acc * 10 + d > i32max then .error .posOverflow
      else parseDigitsPos cs (acc * 10 + d)

def parseDigitsNeg : List Char → Int → Except IntErrKind Int
  | [], acc => .ok acc
  | c :: cs, acc =>
    match digitVal c with
    | none => .error .invalidDigit
    | some d =>
      if acc * 10 - d < i32min then .error .negOverflow
      else parseDigitsNeg cs (acc * 10 - d)

/-- Rust `i32::from_str`: optional sign, then a non-empty run of ASCII
digits, accumulated with overflow checking. -/
def parseI32 : List Char → Except IntErrKind Int
  | [] => .error .empty
  | c :: cs =>
    if c = '-' then
      if cs = [] then .error .invalidDigit else parseDigitsNeg cs 0
    else if c = '+' then
      if cs = [] then .error .invalidDigit else parseDigitsPos cs 0
    else parseDigitsPos (c :: cs) 0

/-! ## Rust `str::split(' ')` on character lists -/

def splitSp : List Char → List (List Char)
  | [] => [[]]
  | c :: cs =>
    if c = ' ' then [] :: splitSp cs
    else
      match splitSp cs with
      | [] => [[c]]
      | t :: ts => (c :: t) :: ts

def joinSp : List (List Char) → List Char
  | [] => []
  | [t] => t
  | t :: ts => t ++ ' ' :: joinSp ts

/-! ## Decimal rendering (C `%d` / Rust `{}` formatting of integers) -/

def natToDigitsAux : Nat → Nat → List Char
  | 0, _ => []
  | fuel + 1, n =>
    if n < 10 then [Char.ofNat (48 + n)]
    else natToDigitsAux fuel (n / 10) ++ [Char.ofNat (48 + n % 10)]

def natToDigits (n : Nat) : List Char := natToDigitsAux (n + 1) n

def intToDecChars (x : Int) : List Char :=
  if x < 0 then '-' :: natToDigits (-x).toNat else natToDigits x.toNat

/-! ## The native engine at the boundary (modelled from the spec) -/

/-- The native engine's state for a disc handle populated by
`discid_put`: first and last track number, lead-out sector count, and
the dense per-track start offsets for tracks `first..=last`. -/
structure NativeDisc where
  first : Int
  last : Int
  sectors : Int
  trackOffsets : List Int
deriving DecidableEq

def strictlyIncr : List Int → Bool
  | [] => true
  | [_] => true
  | a :: b :: rest => a < b && strictlyIncr (b :: rest)

/-- The dense per-track slice the engine reads from an offsets buffer:
entry `k` is the offset of track `first + k`, read at buffer slot
`first + k`, for the `last - first + 1` tracks. -/
def tocSlice (first last : Int) (buf : List Int) : List Int :=
  (List.range (last - first + 1).toNat).map (fun k => buf.getD (first.toNat + k) 0)

/-- Modelled from the spec: the native engine's `discid_put` call, which
is not part of this repository. Given the first and last track number
and the 0-indexed offsets buffer (slot 0 the lead-out / total sector
count, slots `first..=last` the per-track start offsets), it validates
the OffsetTable data-model invariants of spec section 3 (`first_track`
in `1..=99`, `last_track` in `first_track..=99`, `total_sectors > 0`,
per-track offsets strictly increasing and each below `total_sectors`)
and on success stores the validated table in the handle. Any violation
is reported as a failure (the tests observe the engine diagnostic
"Illegal track limits"). -/
def discid_put (first last : Int) (buf : List Int) : Option NativeDisc :=
  if 1 ≤ first ∧ first ≤ last ∧ last ≤ 99 then
    if 0 < buf.getD 0 0 ∧ strictlyIncr (tocSlice first last buf) = true ∧
        (∀ x ∈ tocSlice first last buf, x < buf.getD 0 0) then
      some ⟨first, last, buf.getD 0 0, tocSlice first last buf⟩
    else none
  else none

/-- Modelled from the spec: the native getters `discid_get_first_track_num`
and `discid_get_last_track_num` read the stored track limits. -/
def first_track_num (d : NativeDisc) : Int := d.first

def last_track_num (d : NativeDisc) : Int := d.last

/-- Modelled from the spec: `discid_get_sectors` reads the lead-out. -/
def sectorCount (d : NativeDisc) : Int := d.sectors

/-- Modelled from the spec: `discid_get_track_offset` for an in-range
track number reads that track's start offset. -/
def track_offset (d : NativeDisc) (n : Int) : Int :=
  d.trackOffsets.getD (n - d.first).toNat 0

/-- Modelled from the spec: `discid_get_track_length` is the distance to
the next track's offset, or to the lead-out for the last track. -/
def track_length (d : NativeDisc) (n : Int) : Int :=
  (if n = d.last then d.sectors else track_offset d (n + 1)) - track_offset d n

/-- Modelled from the spec: the engine's canonical TOC-string
serialization `"<first> <last> <leadout> <offset> ..."` with the
per-track offsets of tracks `first..=last`, space separated. -/
def toc_string (d : NativeDisc) : String :=
  String.mk (joinSp (([d.first, d.last, d.sectors] ++ d.trackOffsets).map intToDecChars))

/-! ## DiscError / construction results (src/lib.rs) -/

structure DiscError where
  reason : String
deriving DecidableEq

/-- The `From<ParseIntError> for DiscError` conversion: the reason is the
`ParseIntError` display text (src/lib.rs lines 120-126). -/
def intErr (k : IntErrKind) : DiscError := ⟨parseIntErrMsg k⟩

/-- Outcome of a `DiscId` construction call: `Ok`, `Err`, or a Rust
panic (process abort). -/
inductive PutResult where
  | ok (d : NativeDisc)
  | err (e : DiscError)
  | panicked
deriving DecidableEq

def illegalLimitsMsg : String := "Illegal track limits"

def mkPutResult : Option NativeDisc → PutResult
  | some d => .ok d
  | none => .err ⟨illegalLimitsMsg⟩

/-- The 100-slot C array assembled by `DiscId::put` when `first > 1`:
zero-filled, slot 0 set to the lead-out, then
`full_offsets[first..=last]` overwritten with the per-track offsets. -/
def buildFull (o0 : Int) (start : Nat) (rest : List Int) : List Int :=
  (List.range 100).map (fun j =>
    if start ≤ j ∧ j < start + rest.length then rest.getD (j - start) 0
    else if j = 0 then o0
    else 0)

/-- The value `let last = first + (offsets.len() as c_int) - 2` computed
by `DiscId::put` with wrapping `c_int` arithmetic. -/
def putLast (first : Int) (len : Nat) : Int := wrap32 (first + wrap32 (len : Int) - 2)

/-- `DiscId::put` (src/lib.rs lines 285-311). For
`first > 1 && last <= 99` the offsets are copied into a fresh 100-slot
array: indexing `offsets[0]` panics on an empty slice, and the slice
assignment `full_offsets[first as usize..(last + 1) as usize]
.copy_from_slice(&offsets[1..])` panics when the range is invalid,
beyond the 100 slots, or of a different length than `offsets[1..]`.
Otherwise the raw slice is handed to the native engine. -/
def put (first : Int) (offsets : List Int) : PutResult :=
  match offsets with
  | [] =>
    if first > 1 ∧ putLast first 0 ≤ 99 then .panicked
    else mkPutResult (discid_put first (putLast first 0) [])
  | o0 :: rest =>
    if first > 1 ∧ putLast first (rest.length + 1) ≤ 99 then
      if toUsize first ≤ toUsize (putLast first (rest.length + 1) + 1) ∧
          toUsize (putLast first (rest.length + 1) + 1) ≤ 100 ∧
          toUsize (putLast first (rest.length + 1) + 1) - toUsize first = rest.length then
        mkPutResult (discid_put first (putLast first (rest.length + 1))
          (buildFull o0 (toUsize first) rest))
      else .panicked
    else mkPutResult (discid_put first (putLast first (rest.length + 1)) (o0 :: rest))

/-! ## `DiscId::parse` (src/lib.rs lines 333-371) -/

def tooManyMsg : String := "TOC string contains too many offsets (max. 100)"

def rustEscapeChar (c : Char) : List Char :=
  if c = '"' then ['\\', '"'] else if c = '\\' then ['\\', '\\'] else [c]

/-- The message `format!("Invalid TOC string {:?}", toc)` (the `{:?}`
debug form quotes the string). -/
def invalidTocMsg (toc : String) : String :=
  String.mk ("Invalid TOC string \"".toList ++ (toc.toList.map rustEscapeChar).flatten ++ ['"'])

/-- The message `format!("Number of offsets {} does not match track count {}",
offset_count, last_track)` from src/lib.rs lines 364-367. -/
def mismatchMsg (offsetCount lastTrack : Int) : String :=
  String.mk ("Number of offsets ".toList ++ intToDecChars offsetCount
    ++ " does not match track count ".toList ++ intToDecChars lastTrack)

/-- State of the token loop in `DiscId::parse`: the running index, the
parsed first and last track, and the 100-slot offsets array; `fail` is
an early `return Err(..)`; `oob` is a panicking array write
`offsets[i - 2]` with an out-of-range index. -/
inductive LoopRes where
  | res (i : Nat) (first last : Int) (offsets : List Int)
  | fail (e : DiscError)
  | oob
deriving DecidableEq

def parseLoop : List (List Char) → Nat → Int → Int → List Int → LoopRes
  | [], i, f, l, offs => .res i f l offs
  | t :: ts, i, f, l, offs =>
    match parseI32 t with
    | .error k => .fail (intErr k)
    | .ok v =>
      if i = 0 then parseLoop ts (i + 1) v l offs
      else if i = 1 then parseLoop ts (i + 1) f v offs
      else
        if i > (toUsize l + 2) % 2 ^ 64 ∨ i > 99 + 2 then .fail ⟨tooManyMsg⟩
        else if i - 2 < offs.length then parseLoop ts (i + 1) f l (offs.set (i - 2) v)
        else .oob

def parseFinish (toc : String) : LoopRes → PutResult
  | .oob => .panicked
  | .fail e => .err e
  | .res i f l offs =>
    if i < 3 then .err ⟨invalidTocMsg toc⟩
    else if wrap32 (l - f + 1) ≠ wrap32 ((i : Int) - 3) then
      .err ⟨mismatchMsg (wrap32 ((i : Int) - 3)) l⟩
    else if i - 2 ≤ offs.length then put f (offs.take (i - 2))
    else .panicked

def parse (toc : String) : PutResult :=
  parseFinish toc (parseLoop (splitSp toc.toList) 0 1 1 (List.replicate 100 0))

/-! ## `DiscId::read` / `DiscId::read_features` and track access -/

/-- Oracle for the external hardware read performed by the native
engine's `discid_read_sparse`: whether it succeeds, the resulting disc
state, and its diagnostic message on failure. -/
structure Engine where
  read_ok : Bool
  disc : NativeDisc
  errMsg : String

def featureRead : Nat := 1

/-- `DiscId::read_features` (src/lib.rs lines 246-259): converting the
device string with `CString::new(..).expect(..)` panics on an interior
NUL byte; otherwise the native read either populates the handle or its
diagnostic is returned as a `DiscError`. -/
def read_features (eng : Engine) (device : Option (List Char)) (_features : Nat) : PutResult :=
  match device with
  | some dstr =>
    if Char.ofNat 0 ∈ dstr then .panicked
    else if eng.read_ok then .ok eng.disc else .err ⟨eng.errMsg⟩
  | none => if eng.read_ok then .ok eng.disc else .err ⟨eng.errMsg⟩

/-- `DiscId::read` delegates to `read_features` with `Features::READ`. -/
def read (eng : Engine) (device : Option (List Char)) : PutResult :=
  read_features eng device featureRead

structure Track where
  number : Int
  offset : Int
  sectors : Int
  isrc : String
deriving DecidableEq

/-- The `get_track` helper (src/lib.rs lines 613-622); for a disc built
by `put`/`parse` the engine has no ISRC data, so `isrc` is empty. -/
def get_track (d : NativeDisc) (number : Int) : Track :=
  ⟨number, track_offset d number, track_length d number, ""⟩

/-- The full sequence of elements yielded by the `TrackIter` returned
from `DiscId::tracks` (src/lib.rs lines 586-611): one `Track` per
number in `first..=last`, in increasing order. -/
def tracks (d : NativeDisc) : List Track :=
  (List.range (d.last - d.first + 1).toNat).map (fun (k : Nat) => get_track d (d.first + k))

/-- Outcome of `DiscId::nth_track`: a `Track`, or a panic (the `panic!`
in src/lib.rs lines 537-542) with its message. -/
inductive NthResult where
  | track (t : Track)
  | aborted (msg : String)
deriving DecidableEq

def oobTrackMsg (number first last : Int) : String :=
  String.mk ("track number out of bounds: given ".toList ++ intToDecChars number
    ++ ", expected between ".toList ++ intToDecChars first
    ++ " and ".toList ++ intToDecChars last)

/-- `DiscId::nth_track` (src/lib.rs lines 534-544). -/
def nth_track (d : NativeDisc) (number : Int) : NthResult :=
  if number < d.first ∨ number > d.last then
    .aborted (oobTrackMsg number d.first d.last)
  else .track (get_track d number)

/-! ## Data-model invariants (spec section 3, OffsetTable) -/

def discInvariants (d : NativeDisc) : Prop :=
  1 ≤ d.first ∧ d.first ≤ d.last ∧ d.last ≤ 99 ∧ 0 < d.sectors ∧
  d.trackOffsets.length = (d.last - d.first + 1).toNat ∧
  strictlyIncr d.trackOffsets = true ∧
  ∀ x ∈ d.trackOffsets, x < d.sectors

/-- All numeric fields of the disc lie in the `i32` range, as they must
for any disc the `c_int`-typed API can actually have produced. -/
def discI32 (d : NativeDisc) : Prop :=
  i32min ≤ d.sectors ∧ d.sectors ≤ i32max ∧
  ∀ x ∈ d.trackOffsets, i32min ≤ x ∧ x ≤ i32max

/-- The cumulative effect of the parse loop's sequence of array writes:
`setAll offs j vs` stores the elements of `vs` at consecutive indices
starting at `j`. -/
def setAll : List Int → Nat → List Int → List Int
  | offs, _, [] => offs
  | offs, j, v :: vs => setAll (offs.set j v) (j + 1) vs

/-! ## Basic facts about the machine-integer helpers -/

theorem wrap32_eq_self (x : Int) (h1 : i32min ≤ x) (h2 : x ≤ i32max) : wrap32 x = x := by
  simp only [wrap32, i32min, i32max] at *
  omega

theorem toUsize_eq_toNat (x : Int) (h1 : 0 ≤ x) (h2 : x < 2 ^ 64) : toUsize x = x.toNat := by
  simp only [toUsize]
  omega

/-! ## Facts about `parseI32` -/

theorem parseDigitsPos_cons_some (c : Char) (cs : List Char) (acc : Int) (d : Nat)
    (hd : digitVal c = some d) :
    parseDigitsPos (c :: cs) acc
      = if acc * 10 + d > i32max then .error .posOverflow
        else parseDigitsPos cs (acc * 10 + d) := by
  simp only [parseDigitsPos, hd]

theorem parseDigitsPos_cons_none (c : Char) (cs : List Char) (acc : Int)
    (hd : digitVal c = none) :
    parseDigitsPos (c :: cs) acc = .error .invalidDigit := by
  simp only [parseDigitsPos, hd]

theorem parseDigitsNeg_cons_some (c : Char) (cs : List Char) (acc : Int) (d : Nat)
    (hd : digitVal c = some d) :
    parseDigitsNeg (c :: cs) acc
      = if acc * 10 - d < i32min then .error .negOverflow
        else parseDigitsNeg cs (acc * 10 - d) := by
  simp only [parseDigitsNeg, hd]

theorem parseDigitsNeg_cons_none (c : Char) (cs : List Char) (acc : Int)
    (hd : digitVal c = none) :
    parseDigitsNeg (c :: cs) acc = .error .invalidDigit := by
  simp only [parseDigitsNeg, hd]

theorem parseDigitsPos_ok_range : ∀ (cs : List Char) (acc v : Int),
    0 ≤ acc → acc ≤ i32max → parseDigitsPos cs acc = .ok v → 0 ≤ v ∧ v ≤ i32max := by
  intro cs
  induction cs with
  | nil =>
    intro acc v h0 h1 h
    simp only [parseDigitsPos] at h
    injection h with h
    subst h
    exact ⟨h0, h1⟩
  | cons c cs ih =>
    intro acc v h0 h1 h
    cases hd : digitVal c with
    | none => rw [parseDigitsPos_cons_none c cs acc hd] at h; exact absurd h (by simp)
    | some d =>
      rw [parseDigitsPos_cons_some c cs acc d hd] at h
      by_cases hover : acc * 10 + d > i32max
      · rw [if_pos hover] at h; exact absurd h (by simp)
      · rw [if_neg hover] at h
        exact ih (acc * 10 + d) v (by positivity) (by omega) h

theorem parseDigitsNeg_ok_range : ∀ (cs : List Char) (acc v : Int),
    i32min ≤ acc → acc ≤ 0 → parseDigitsNeg cs acc = .ok v → i32min ≤ v ∧ v ≤ 0 := by
  intro cs
  induction cs with
  | nil =>
    intro acc v h0 h1 h
    simp only [parseDigitsNeg] at h
    injection h with h
    subst h
    exact ⟨h0, h1⟩
  | cons c cs ih =>
    intro acc v h0 h1 h
    cases hd : digitVal c with
    | none => rw [parseDigitsNeg_cons_none c cs acc hd] at h; exact absurd h (by simp)
    | some d =>
      rw [parseDigitsNeg_cons_some c cs acc d hd] at h
      by_cases hover : acc * 10 - d < i32min
      · rw [if_pos hover] at h; exact absurd h (by simp)
      · rw [if_neg hover] at h
        refine ih (acc * 10 - d) v (by omega) ?_ h
        have : (0 : Int) ≤ d := Int.natCast_nonneg d
        nlinarith

theorem parseI32_ok_range (t : List Char) (v : Int) (h : parseI32 t = .ok v) :
    i32min ≤ v ∧ v ≤ i32max := by
  cases t with
  | nil => exact absurd h (by simp [parseI32])
  | cons c cs =>
    simp only [parseI32] at h
    by_cases hc1 : c = '-'
    · rw [if_pos hc1] at h
      by_cases hcs : cs = []
      · rw [if_pos hcs] at h; exact absurd h (by simp)
      · rw [if_neg hcs] at h
        have := parseDigitsNeg_ok_range cs 0 v (by simp only [i32min]; omega) le_rfl h
        refine ⟨this.1, le_trans this.2 ?_⟩
        simp only [i32max]; omega
    · rw [if_neg hc1] at h
      by_cases hc2 : c = '+'
      · rw [if_pos hc2] at h
        by_cases hcs : cs = []
        · rw [if_pos hcs] at h; exact absurd h (by simp)
        · rw [if_neg hcs] at h
          have := parseDigitsPos_ok_range cs 0 v le_rfl (by simp only [i32max]; omega) h
          refine ⟨le_trans ?_ this.1, this.2⟩
          simp only [i32min]; omega
      · rw [if_neg hc2] at h
        have := parseDigitsPos_ok_range (c :: cs) 0 v le_rfl (by simp only [i32max]; omega) h
        refine ⟨le_trans ?_ this.1, this.2⟩
        simp only [i32min]; omega

/-! ## Facts about decimal digit rendering -/

theorem natToDigitsAux_congr : ∀ (f1 f2 n : Nat), n < f1 → n < f2 →
    natToDigitsAux f1 n = natToDigitsAux f2 n := by
  intro f1
  induction f1 with
  | zero => intro f2 n h1; omega
  | succ f1 ih =>
    intro f2 n h1 h2
    cases f2 with
    | zero => omega
    | succ f2 =>
      simp only [natToDigitsAux]
      by_cases h10 : n < 10
      · rw [if_pos h10, if_pos h10]
      · rw [if_neg h10, if_neg h10]
        have hdiv : n / 10 < n := Nat.div_lt_self (by omega) (by omega)
        rw [ih f2 (n / 10) (by omega) (by omega)]

theorem natToDigitsAux_succ (fuel n : Nat) :
    natToDigitsAux (fuel + 1) n
      = if n < 10 then [Char.ofNat (48 + n)]
        else natToDigitsAux fuel (n / 10) ++ [Char.ofNat (48 + n % 10)] := rfl

theorem natToDigits_lt (n : Nat) (h : n < 10) : natToDigits n = [Char.ofNat (48 + n)] := by
  rw [natToDigits, natToDigitsAux_succ, if_pos h]

theorem natToDigits_rec (n : Nat) (h : 10 ≤ n) :
    natToDigits n = natToDigits (n / 10) ++ [Char.ofNat (48 + n % 10)] := by
  have hdiv : n / 10 < n := Nat.div_lt_self (by omega) (by omega)
  rw [natToDigits, natToDigitsAux_succ, if_neg (by omega : ¬ n < 10),
    natToDigitsAux_congr n (n / 10 + 1) (n / 10) (by omega) (by omega)]
  rfl

theorem natToDigits_ne_nil (n : Nat) : natToDigits n ≠ [] := by
  by_cases h : n < 10
  · rw [natToDigits_lt n h]; simp
  · rw [natToDigits_rec n (by omega)]; simp

theorem natToDigits_mem (n : Nat) : ∀ c ∈ natToDigits n, ∃ k, k < 10 ∧ c = Char.ofNat (48 + k) := by
  induction n using Nat.strong_induction_on with
  | _ n ih =>
    intro c hc
    by_cases h : n < 10
    · rw [natToDigits_lt n h] at hc
      simp at hc
      exact ⟨n, h, hc⟩
    · rw [natToDigits_rec n (by omega)] at hc
      rcases List.mem_append.mp hc with h1 | h2
      · exact ih (n / 10) (Nat.div_lt_self (by omega) (by omega)) c h1
      · simp at h2
        exact ⟨n % 10, Nat.mod_lt n (by omega), h2⟩

theorem dchar_ne_dash (k : Nat) (h : k < 10) : Char.ofNat (48 + k) ≠ '-' := by
  interval_cases k <;> decide

theorem dchar_ne_plus (k : Nat) (h : k < 10) : Char.ofNat (48 + k) ≠ '+' := by
  interval_cases k <;> decide

theorem dchar_ne_space (k : Nat) (h : k < 10) : Char.ofNat (48 + k) ≠ ' ' := by
  interval_cases k <;> decide

theorem digitVal_dchar (k : Nat) (h : k < 10) : digitVal (Char.ofNat (48 + k)) = some k := by
  interval_cases k <;> decide

theorem intToDecChars_no_space (x : Int) : ' ' ∉ intToDecChars x := by
  intro hmem
  simp only [intToDecChars] at hmem
  by_cases h : x < 0
  · rw [if_pos h] at hmem
    rcases List.mem_cons.mp hmem with h1 | h2
    · exact absurd h1.symm (by decide)
    · obtain ⟨k, hk, hc⟩ := natToDigits_mem _ _ h2
      exact dchar_ne_space k hk hc.symm
  · rw [if_neg h] at hmem
    obtain ⟨k, hk, hc⟩ := natToDigits_mem _ _ hmem
    exact dchar_ne_space k hk hc.symm

theorem intToDecChars_ne_nil (x : Int) : intToDecChars x ≠ [] := by
  simp only [intToDecChars]
  by_cases h : x < 0
  · rw [if_pos h]; simp
  · rw [if_neg h]; exact natToDigits_ne_nil _

/-! ## Round-trip: parsing the decimal rendering of an `i32` value -/

theorem parseDigitsPos_natToDigits : ∀ (n : Nat) (rest : List Char) (acc : Int),
    0 ≤ acc → acc * 10 ^ (natToDigits n).length + n ≤ i32max →
    parseDigitsPos (natToDigits n ++ rest) acc
      = parseDigitsPos rest (acc * 10 ^ (natToDigits n).length + n) := by
  intro n
  induction n using Nat.strong_induction_on with
  | _ n ih =>
    intro rest acc hacc hbound
    by_cases h : n < 10
    · rw [natToDigits_lt n h] at hbound ⊢
      rw [List.length_singleton, pow_one] at hbound ⊢
      rw [List.singleton_append, parseDigitsPos_cons_some _ rest acc n (digitVal_dchar n h),
        if_neg (not_lt.mpr hbound)]
    · have hrec := natToDigits_rec n (by omega)
      have hdiv : n / 10 < n := Nat.div_lt_self (by omega) (by omega)
      have hmod : n % 10 < 10 := Nat.mod_lt n (by omega)
      rw [hrec] at hbound ⊢
      rw [List.length_append, List.length_singleton, pow_succ] at hbound ⊢
      rw [List.append_assoc, List.singleton_append]
      have hPpos : (0 : Int) < 10 ^ (natToDigits (n / 10)).length := by positivity
      have hq : (0 : Int) ≤ ((n / 10 : Nat) : Int) := Int.natCast_nonneg _
      have hr : (0 : Int) ≤ ((n % 10 : Nat) : Int) := Int.natCast_nonneg _
      have hqrZ : 10 * ((n / 10 : Nat) : Int) + ((n % 10 : Nat) : Int) = (n : Int) := by
        exact_mod_cast Nat.div_add_mod n 10
      have hA : (0 : Int) ≤ acc * 10 ^ (natToDigits (n / 10)).length :=
        mul_nonneg hacc hPpos.le
      have hmid : acc * 10 ^ (natToDigits (n / 10)).length + ((n / 10 : Nat) : Int) ≤ i32max := by
        nlinarith
      rw [ih (n / 10) hdiv (Char.ofNat (48 + n % 10) :: rest) acc hacc hmid]
      rw [parseDigitsPos_cons_some _ rest _ (n % 10) (digitVal_dchar (n % 10) hmod)]
      have hval : (acc * 10 ^ (natToDigits (n / 10)).length + ((n / 10 : Nat) : Int)) * 10
          + ((n % 10 : Nat) : Int)
          = acc * (10 ^ (natToDigits (n / 10)).length * 10) + (n : Int) := by
        rw [← hqrZ]; ring
      rw [hval, if_neg (not_lt.mpr hbound)]

theorem parseDigitsNeg_natToDigits : ∀ (n : Nat) (rest : List Char) (acc : Int),
    acc ≤ 0 → i32min ≤ acc * 10 ^ (natToDigits n).length - n →
    parseDigitsNeg (natToDigits n ++ rest) acc
      = parseDigitsNeg rest (acc * 10 ^ (natToDigits n).length - n) := by
  intro n
  induction n using Nat.strong_induction_on with
  | _ n ih =>
    intro rest acc hacc hbound
    by_cases h : n < 10
    · rw [natToDigits_lt n h] at hbound ⊢
      rw [List.length_singleton, pow_one] at hbound ⊢
      rw [List.singleton_append, parseDigitsNeg_cons_some _ rest acc n (digitVal_dchar n h),
        if_neg (not_lt.mpr hbound)]
    · have hrec := natToDigits_rec n (by omega)
      have hdiv : n / 10 < n := Nat.div_lt_self (by omega) (by omega)
      have hmod : n % 10 < 10 := Nat.mod_lt n (by omega)
      rw [hrec] at hbound ⊢
      rw [List.length_append, List.length_singleton, pow_succ] at hbound ⊢
      rw [List.append_assoc, List.singleton_append]
      have hPpos : (0 : Int) < 10 ^ (natToDigits (n / 10)).length := by positivity
      have hq : (0 : Int) ≤ ((n / 10 : Nat) : Int) := Int.natCast_nonneg _
      have hr : (0 : Int) ≤ ((n % 10 : Nat) : Int) := Int.natCast_nonneg _
      have hqrZ : 10 * ((n / 10 : Nat) : Int) + ((n % 10 : Nat) : Int) = (n : Int) := by
        exact_mod_cast Nat.div_add_mod n 10
      have hA : acc * 10 ^ (natToDigits (n / 10)).length ≤ 0 :=
        mul_nonpos_of_nonpos_of_nonneg hacc hPpos.le
      have hmid : i32min ≤ acc * 10 ^ (natToDigits (n / 10)).length - ((n / 10 : Nat) : Int) := by
        nlinarith
      rw [ih (n / 10) hdiv (Char.ofNat (48 + n % 10) :: rest) acc hacc hmid]
      rw [parseDigitsNeg_cons_some _ rest _ (n % 10) (digitVal_dchar (n % 10) hmod)]
      have hval : (acc * 10 ^ (natToDigits (n / 10)).length - ((n / 10 : Nat) : Int)) * 10
          - ((n % 10 : Nat) : Int)
          = acc * (10 ^ (natToDigits (n / 10)).length * 10) - (n : Int) := by
        rw [← hqrZ]; ring
      rw [hval, if_neg (not_lt.mpr hbound)]

theorem parseI32_intToDec (x : Int) (h1 : i32min ≤ x) (h2 : x ≤ i32max) :
    parseI32 (intToDecChars x) = .ok x := by
  by_cases hneg : x < 0
  · simp only [intToDecChars, if_pos hneg]
    have hm : (1 : Nat) ≤ (-x).toNat := by omega
    simp only [parseI32, if_pos rfl, if_true, if_neg (natToDigits_ne_nil (-x).toNat)]
    have := parseDigitsNeg_natToDigits (-x).toNat [] 0 le_rfl
      (by
        rw [zero_mul, zero_sub]
        simp only [i32min] at h1 ⊢
        omega)
    rw [← List.append_nil (natToDigits (-x).toNat), this]
    simp only [parseDigitsNeg]
    rw [zero_mul, zero_sub]
    congr 1
    omega
  · simp only [intToDecChars, if_neg hneg]
    obtain ⟨c, cs, hcons⟩ := List.exists_cons_of_ne_nil (natToDigits_ne_nil x.toNat)
    obtain ⟨k, hk, hc⟩ := natToDigits_mem x.toNat c (by rw [hcons]; exact List.mem_cons_self c cs)
    rw [hcons]
    simp only [parseI32, if_neg (hc ▸ dchar_ne_dash k hk), if_neg (hc ▸ dchar_ne_plus k hk)]
    rw [← hcons]
    have := parseDigitsPos_natToDigits x.toNat [] 0 le_rfl
      (by
        rw [zero_mul, zero_add]
        simp only [i32max] at h2 ⊢
        omega)
    rw [← List.append_nil (natToDigits x.toNat), this]
    simp only [parseDigitsPos]
    rw [zero_mul, zero_add]
    congr 1
    omega

/-! ## Facts about the tokenizer -/

theorem splitSp_cons (c : Char) (cs : List Char) :
    splitSp (c :: cs)
      = if c = ' ' then [] :: splitSp cs
        else
          match splitSp cs with
          | [] => [[c]]
          | t :: ts => (c :: t) :: ts := rfl

theorem splitSp_no_space : ∀ (t : List Char), ' ' ∉ t → splitSp t = [t] := by
  intro t
  induction t with
  | nil => intro _; rfl
  | cons c cs ih =>
    intro h
    have hc : ¬ c = ' ' := fun hc => h (hc ▸ List.mem_cons_self c cs)
    have hcs : ' ' ∉ cs := fun hm => h (List.mem_cons_of_mem c hm)
    rw [splitSp_cons, if_neg hc, ih hcs]

theorem splitSp_append : ∀ (t r : List Char), ' ' ∉ t →
    splitSp (t ++ ' ' :: r) = t :: splitSp r := by
  intro t
  induction t with
  | nil => intro r _; rw [List.nil_append, splitSp_cons, if_pos rfl]
  | cons c cs ih =>
    intro r h
    have hc : ¬ c = ' ' := fun hc => h (hc ▸ List.mem_cons_self c cs)
    have hcs : ' ' ∉ cs := fun hm => h (List.mem_cons_of_mem c hm)
    rw [List.cons_append, splitSp_cons, if_neg hc, ih r hcs]

theorem splitSp_joinSp : ∀ (ts : List (List Char)), ts ≠ [] →
    (∀ t ∈ ts, ' ' ∉ t) → splitSp (joinSp ts) = ts := by
  intro ts
  induction ts with
  | nil => intro h; exact absurd rfl h
  | cons t ts ih =>
    intro _ hall
    cases ts with
    | nil =>
      simp only [joinSp]
      exact splitSp_no_space t (hall t (List.mem_cons_self t []))
    | cons t2 ts2 =>
      have hjoin : joinSp (t :: t2 :: ts2) = t ++ ' ' :: joinSp (t2 :: ts2) := rfl
      rw [hjoin, splitSp_append t _ (hall t (List.mem_cons_self t _)),
        ih (by simp) (fun u hu => hall u (List.mem_cons_of_mem t hu))]

/-! ## Step equations and invariants of the parse loop -/

theorem parseLoop_nil (i : Nat) (f l : Int) (offs : List Int) :
    parseLoop [] i f l offs = .res i f l offs := rfl

theorem parseLoop_cons_err (t : List Char) (ts : List (List Char)) (i : Nat) (f l : Int)
    (offs : List Int) (k : IntErrKind) (h : parseI32 t = .error k) :
    parseLoop (t :: ts) i f l offs = .fail (intErr k) := by
  simp only [parseLoop, h]

theorem parseLoop_cons_zero (t : List Char) (ts : List (List Char)) (f l : Int)
    (offs : List Int) (v : Int) (h : parseI32 t = .ok v) :
    parseLoop (t :: ts) 0 f l offs = parseLoop ts 1 v l offs := by
  simp only [parseLoop, h, if_pos rfl, if_true]

theorem parseLoop_cons_one (t : List Char) (ts : List (List Char)) (f l : Int)
    (offs : List Int) (v : Int) (h : parseI32 t = .ok v) :
    parseLoop (t :: ts) 1 f l offs = parseLoop ts 2 f v offs := by
  simp [parseLoop, h]

theorem parseLoop_cons_big (t : List Char) (ts : List (List Char)) (i : Nat) (f l : Int)
    (offs : List Int) (v : Int) (h : parseI32 t = .ok v) (hi : 2 ≤ i) :
    parseLoop (t :: ts) i f l offs
      = if i > (toUsize l + 2) % 2 ^ 64 ∨ i > 99 + 2 then .fail ⟨tooManyMsg⟩
        else if i - 2 < offs.length then parseLoop ts (i + 1) f l (offs.set (i - 2) v)
        else .oob := by
  simp only [parseLoop, h]
  rw [if_neg (by omega), if_neg (by omega)]

theorem parseLoop_res_inv : ∀ (ts : List (List Char)) (i : Nat) (f l : Int) (offs : List Int)
    (i2 : Nat) (f2 l2 : Int) (offs2 : List Int),
    parseLoop ts i f l offs = .res i2 f2 l2 offs2 →
    offs2.length = offs.length ∧ i2 = i + ts.length ∧ (1 ≤ i → f2 = f) := by
  intro ts
  induction ts with
  | nil =>
    intro i f l offs i2 f2 l2 offs2 h
    rw [parseLoop_nil] at h
    injection h with h1 h2 h3 h4
    subst h1; subst h2; subst h4
    exact ⟨rfl, by simp, fun _ => rfl⟩
  | cons t ts ih =>
    intro i f l offs i2 f2 l2 offs2 h
    cases hp : parseI32 t with
    | error k =>
      rw [parseLoop_cons_err t ts i f l offs k hp] at h
      exact absurd h (by simp)
    | ok v =>
      by_cases h0 : i = 0
      · subst h0
        rw [parseLoop_cons_zero t ts f l offs v hp] at h
        obtain ⟨hl, hi, _⟩ := ih 1 v l offs i2 f2 l2 offs2 h
        refine ⟨hl, by simp only [List.length_cons]; omega, fun hc => absurd hc (by omega)⟩
      · by_cases h1 : i = 1
        · subst h1
          rw [parseLoop_cons_one t ts f l offs v hp] at h
          obtain ⟨hl, hi, hf⟩ := ih 2 f v offs i2 f2 l2 offs2 h
          exact ⟨hl, by simp only [List.length_cons]; omega, fun _ => hf (by omega)⟩
        · rw [parseLoop_cons_big t ts i f l offs v hp (by omega)] at h
          by_cases hg : i > (toUsize l + 2) % 2 ^ 64 ∨ i > 99 + 2
          · rw [if_pos hg] at h
            exact absurd h (by simp)
          · rw [if_neg hg] at h
            by_cases hw : i - 2 < offs.length
            · rw [if_pos hw] at h
              obtain ⟨hl, hi, hf⟩ := ih (i + 1) f l (offs.set (i - 2) v) i2 f2 l2 offs2 h
              refine ⟨by rw [hl, List.length_set], by simp only [List.length_cons]; omega,
                fun _ => hf (by omega)⟩
            · rw [if_neg hw] at h
              exact absurd h (by simp)

theorem parseLoop_ne_oob : ∀ (ts : List (List Char)) (i : Nat) (f l : Int) (offs : List Int),
    offs.length = 100 → parseLoop ts i f l offs ≠ .oob := by
  intro ts
  induction ts with
  | nil =>
    intro i f l offs _
    rw [parseLoop_nil]
    simp
  | cons t ts ih =>
    intro i f l offs hlen
    cases hp : parseI32 t with
    | error k =>
      rw [parseLoop_cons_err t ts i f l offs k hp]
      simp
    | ok v =>
      by_cases h0 : i = 0
      · subst h0
        rw [parseLoop_cons_zero t ts f l offs v hp]
        exact ih 1 v l offs hlen
      · by_cases h1 : i = 1
        · subst h1
          rw [parseLoop_cons_one t ts f l offs v hp]
          exact ih 2 f v offs hlen
        · rw [parseLoop_cons_big t ts i f l offs v hp (by omega)]
          by_cases hg : i > (toUsize l + 2) % 2 ^ 64 ∨ i > 99 + 2
          · rw [if_pos hg]
            simp
          · rw [if_neg hg]
            have hi101 : i ≤ 101 := by omega
            rw [if_pos (by omega)]
            exact ih (i + 1) f l (offs.set (i - 2) v) (by rw [List.length_set, hlen])

theorem parseLoop_res_i_le : ∀ (ts : List (List Char)) (i : Nat) (f l : Int) (offs : List Int)
    (i2 : Nat) (f2 l2 : Int) (offs2 : List Int), i ≤ 102 →
    parseLoop ts i f l offs = .res i2 f2 l2 offs2 → i2 ≤ 102 := by
  intro ts
  induction ts with
  | nil =>
    intro i f l offs i2 f2 l2 offs2 hi h
    rw [parseLoop_nil] at h
    injection h with h1 _ _ _
    omega
  | cons t ts ih =>
    intro i f l offs i2 f2 l2 offs2 hi h
    cases hp : parseI32 t with
    | error k =>
      rw [parseLoop_cons_err t ts i f l offs k hp] at h
      exact absurd h (by simp)
    | ok v =>
      by_cases h0 : i = 0
      · subst h0
        rw [parseLoop_cons_zero t ts f l offs v hp] at h
        exact ih 1 v l offs i2 f2 l2 offs2 (by omega) h
      · by_cases h1 : i = 1
        · subst h1
          rw [parseLoop_cons_one t ts f l offs v hp] at h
          exact ih 2 f v offs i2 f2 l2 offs2 (by omega) h
        · rw [parseLoop_cons_big t ts i f l offs v hp (by omega)] at h
          by_cases hg : i > (toUsize l + 2) % 2 ^ 64 ∨ i > 99 + 2
          · rw [if_pos hg] at h
            exact absurd h (by simp)
          · rw [if_neg hg] at h
            by_cases hw : i - 2 < offs.length
            · rw [if_pos hw] at h
              exact ih (i + 1) f l (offs.set (i - 2) v) i2 f2 l2 offs2 (by omega) h
            · rw [if_neg hw] at h
              exact absurd h (by simp)

theorem parseLoop_first_tok (t : List Char) (ts : List (List Char)) (f l : Int)
    (offs : List Int) (i2 : Nat) (f2 l2 : Int) (offs2 : List Int)
    (h : parseLoop (t :: ts) 0 f l offs = .res i2 f2 l2 offs2) : parseI32 t = .ok f2 := by
  cases hp : parseI32 t with
  | error k =>
    rw [parseLoop_cons_err t ts 0 f l offs k hp] at h
    exact absurd h (by simp)
  | ok v =>
    rw [parseLoop_cons_zero t ts f l offs v hp] at h
    obtain ⟨_, _, hf⟩ := parseLoop_res_inv ts 1 v l offs i2 f2 l2 offs2 h
    rw [hf (by omega)]

/-! ## The sequence of writes performed by the parse loop -/

theorem setAll_spec : ∀ (vs : List Int) (offs : List Int) (j : Nat),
    j + vs.length ≤ offs.length →
    setAll offs j vs = offs.take j ++ vs ++ offs.drop (j + vs.length) := by
  intro vs
  induction vs with
  | nil =>
    intro offs j h
    simp only [setAll, List.length_nil, Nat.add_zero, List.nil_append, List.append_nil]
    rw [List.take_append_drop]
  | cons v vs ih =>
    intro offs j h
    simp only [List.length_cons] at h
    have hj : j < offs.length := by omega
    simp only [setAll]
    rw [ih (offs.set j v) (j + 1) (by rw [List.length_set]; omega)]
    rw [List.set_eq_take_cons_drop v hj]
    have hA : (offs.take j).length = j := by
      rw [List.length_take]
      omega
    rw [List.take_append_eq_append_take, List.drop_append_eq_append_drop,
      List.take_of_length_le (by omega : (offs.take j).length ≤ j + 1),
      List.drop_eq_nil_of_le (by omega : (offs.take j).length ≤ j + 1 + vs.length), hA]
    have e1 : j + 1 - j = 1 := by omega
    have e2 : j + 1 + vs.length - j = vs.length + 1 := by omega
    rw [e1, e2]
    have ht : (v :: offs.drop (j + 1)).take 1 = [v] := rfl
    rw [ht, List.drop_succ_cons, List.drop_drop, List.nil_append]
    have e3 : j + 1 + vs.length = j + (v :: vs).length := by
      simp only [List.length_cons]
      omega
    rw [e3]
    simp [List.append_assoc]

theorem setAll_take (vs : List Int) (offs : List Int) (j : Nat)
    (h : j + vs.length ≤ offs.length) :
    (setAll offs j vs).take (j + vs.length) = offs.take j ++ vs := by
  have hlen : (offs.take j ++ vs).length = j + vs.length := by
    rw [List.length_append, List.length_take]
    omega
  rw [setAll_spec vs offs j h, ← hlen, List.take_left]

theorem parseLoop_run_offsets : ∀ (vs : List Int) (i : Nat) (f l : Int) (offs : List Int),
    2 ≤ i → 0 ≤ l → l ≤ 99 → ((i : Int) + vs.length ≤ l + 3) → offs.length = 100 →
    (∀ v ∈ vs, i32min ≤ v ∧ v ≤ i32max) →
    parseLoop (vs.map intToDecChars) i f l offs = .res (i + vs.length) f l (setAll offs (i - 2) vs) := by
  intro vs
  induction vs with
  | nil =>
    intro i f l offs _ _ _ _ _ _
    simp [parseLoop_nil, setAll]
  | cons v vs ih =>
    intro i f l offs h2i h0l hl99 hcount hlen hmem
    have hv := hmem v (List.mem_cons_self v vs)
    have hpv : parseI32 (intToDecChars v) = .ok v := parseI32_intToDec v hv.1 hv.2
    simp only [List.length_cons] at hcount
    push_cast at hcount
    rw [List.map_cons, parseLoop_cons_big _ _ i f l offs v hpv h2i]
    have htu : toUsize l = l.toNat := toUsize_eq_toNat l h0l (by omega)
    have hln : l.toNat ≤ 99 := by omega
    have hmod : (l.toNat + 2) % 2 ^ 64 = l.toNat + 2 := Nat.mod_eq_of_lt (by omega)
    have hile : i ≤ l.toNat + 2 := by omega
    rw [if_neg (by rw [htu, hmod]; omega), if_pos (by rw [hlen]; omega)]
    rw [ih (i + 1) f l (offs.set (i - 2) v) (by omega) h0l hl99 (by push_cast; omega)
      (by rw [List.length_set, hlen]) (fun u hu => hmem u (List.mem_cons_of_mem v hu))]
    have e1 : i + 1 - 2 = (i - 2) + 1 := by omega
    have e2 : i + 1 + vs.length = i + (v :: vs).length := by
      simp only [List.length_cons]
      omega
    rw [e1, e2]
    rfl

/-! ## Inversion and introduction lemmas for the engine and `put` -/

theorem tocSlice_length (f l : Int) (buf : List Int) :
    (tocSlice f l buf).length = (l - f + 1).toNat := by
  simp [tocSlice]

theorem discid_put_eq_some (first last : Int) (buf : List Int)
    (h1 : 1 ≤ first) (h2 : first ≤ last) (h3 : last ≤ 99)
    (h4 : 0 < buf.getD 0 0) (h5 : strictlyIncr (tocSlice first last buf) = true)
    (h6 : ∀ x ∈ tocSlice first last buf, x < buf.getD 0 0) :
    discid_put first last buf = some ⟨first, last, buf.getD 0 0, tocSlice first last buf⟩ := by
  unfold discid_put
  rw [if_pos ⟨h1, h2, h3⟩, if_pos ⟨h4, h5, h6⟩]

theorem discid_put_some_inv (first last : Int) (buf : List Int) (d : NativeDisc)
    (h : discid_put first last buf = some d) :
    d = ⟨first, last, buf.getD 0 0, tocSlice first last buf⟩ ∧
    1 ≤ first ∧ first ≤ last ∧ last ≤ 99 ∧ 0 < buf.getD 0 0 ∧
    strictlyIncr (tocSlice first last buf) = true ∧
    (∀ x ∈ tocSlice first last buf, x < buf.getD 0 0) := by
  unfold discid_put at h
  by_cases hA : 1 ≤ first ∧ first ≤ last ∧ last ≤ 99
  · rw [if_pos hA] at h
    by_cases hB : 0 < buf.getD 0 0 ∧ strictlyIncr (tocSlice first last buf) = true ∧
        ∀ x ∈ tocSlice first last buf, x < buf.getD 0 0
    · rw [if_pos hB] at h
      injection h with h
      exact ⟨h.symm, hA.1, hA.2.1, hA.2.2, hB.1, hB.2.1, hB.2.2⟩
    · rw [if_neg hB] at h
      exact absurd h (by simp)
  · rw [if_neg hA] at h
    exact absurd h (by simp)

theorem range_map_getD : ∀ (l : List Int),
    (List.range l.length).map (fun k => l.getD k 0) = l := by
  intro l
  induction l with
  | nil => rfl
  | cons a l ih =>
    simp only [List.length_cons, List.range_succ_eq_map, List.map_cons, List.map_map,
      List.getD_cons_zero]
    have hcomp : ((fun k => (a :: l).getD k 0) ∘ fun x => x + 1) = (fun k => l.getD k 0) := by
      funext k
      exact List.getD_cons_succ
    rw [hcomp, ih]

theorem getD_mem_or (l : List Int) (j : Nat) : l.getD j 0 ∈ l ∨ l.getD j 0 = 0 := by
  by_cases h : j < l.length
  · left
    rw [List.getD_eq_getElem l 0 h]
    exact List.getElem_mem h
  · right
    exact List.getD_eq_default l 0 (by omega)

theorem buildFull_length (o0 : Int) (start : Nat) (rest : List Int) :
    (buildFull o0 start rest).length = 100 := by
  simp [buildFull]

theorem buildFull_getD (o0 : Int) (start : Nat) (rest : List Int) (j : Nat) (hj : j < 100) :
    (buildFull o0 start rest).getD j 0
      = if start ≤ j ∧ j < start + rest.length then rest.getD (j - start) 0
        else if j = 0 then o0 else 0 := by
  unfold buildFull
  rw [List.getD_eq_getElem?_getD, List.getElem?_map, List.getElem?_range hj]
  rfl

theorem buildFull_mem (o0 : Int) (start : Nat) (rest : List Int) (x : Int)
    (h : x ∈ buildFull o0 start rest) : x = o0 ∨ x ∈ rest ∨ x = 0 := by
  unfold buildFull at h
  obtain ⟨j, _, hx⟩ := List.mem_map.mp h
  by_cases h1 : start ≤ j ∧ j < start + rest.length
  · rw [if_pos h1] at hx
    rcases getD_mem_or rest (j - start) with hm | hz
    · right; left; rw [← hx]; exact hm
    · right; right; rw [← hx]; exact hz
  · rw [if_neg h1] at hx
    by_cases h2 : j = 0
    · rw [if_pos h2] at hx
      left; exact hx.symm
    · rw [if_neg h2] at hx
      right; right; exact hx.symm

theorem mkPutResult_ok (o : Option NativeDisc) (d : NativeDisc) :
    mkPutResult o = .ok d ↔ o = some d := by
  cases o <;> simp [mkPutResult]

theorem mkPutResult_ne_panicked (o : Option NativeDisc) : mkPutResult o ≠ .panicked := by
  cases o <;> simp [mkPutResult]

theorem mkPutResult_err (o : Option NativeDisc) (e : DiscError) (h : mkPutResult o = .err e) :
    o = none ∧ e = ⟨illegalLimitsMsg⟩ := by
  cases o <;> simp_all [mkPutResult]

theorem put_ok_inv (first : Int) (offsets : List Int) (d : NativeDisc)
    (h : put first offsets = .ok d) :
    ∃ last buf, discid_put first last buf = some d ∧ (∀ x ∈ buf, x ∈ offsets ∨ x = 0) := by
  cases offsets with
  | nil =>
    simp only [put] at h
    by_cases hc : first > 1 ∧ putLast first 0 ≤ 99
    · rw [if_pos hc] at h
      exact absurd h (by simp)
    · rw [if_neg hc] at h
      exact ⟨putLast first 0, [], (mkPutResult_ok _ d).mp h, by simp⟩
  | cons o0 rest =>
    simp only [put] at h
    by_cases hc : first > 1 ∧ putLast first (rest.length + 1) ≤ 99
    · rw [if_pos hc] at h
      by_cases hs : toUsize first ≤ toUsize (putLast first (rest.length + 1) + 1) ∧
          toUsize (putLast first (rest.length + 1) + 1) ≤ 100 ∧
          toUsize (putLast first (rest.length + 1) + 1) - toUsize first = rest.length
      · rw [if_pos hs] at h
        refine ⟨putLast first (rest.length + 1), buildFull o0 (toUsize first) rest,
          (mkPutResult_ok _ d).mp h, ?_⟩
        intro x hx
        rcases buildFull_mem o0 (toUsize first) rest x hx with h1 | h2 | h3
        · left; rw [h1]; exact List.mem_cons_self o0 rest
        · left; exact List.mem_cons_of_mem o0 h2
        · right; exact h3
      · rw [if_neg hs] at h
        exact absurd h (by simp)
    · rw [if_neg hc] at h
      exact ⟨putLast first (rest.length + 1), o0 :: rest, (mkPutResult_ok _ d).mp h,
        fun x hx => Or.inl hx⟩

theorem put_err_reason (first : Int) (offsets : List Int) (e : DiscError)
    (h : put first offsets = .err e) : e = ⟨illegalLimitsMsg⟩ := by
  cases offsets with
  | nil =>
    simp only [put] at h
    by_cases hc : first > 1 ∧ putLast first 0 ≤ 99
    · rw [if_pos hc] at h
      exact absurd h (by simp)
    · rw [if_neg hc] at h
      exact (mkPutResult_err _ e h).2
  | cons o0 rest =>
    simp only [put] at h
    by_cases hc : first > 1 ∧ putLast first (rest.length + 1) ≤ 99
    · rw [if_pos hc] at h
      by_cases hs : toUsize first ≤ toUsize (putLast first (rest.length + 1) + 1) ∧
          toUsize (putLast first (rest.length + 1) + 1) ≤ 100 ∧
          toUsize (putLast first (rest.length + 1) + 1) - toUsize first = rest.length
      · rw [if_pos hs] at h
        exact (mkPutResult_err _ e h).2
      · rw [if_neg hs] at h
        exact absurd h (by simp)
    · rw [if_neg hc] at h
      exact (mkPutResult_err _ e h).2

theorem setAll_length : ∀ (vs : List Int) (offs : List Int) (j : Nat),
    (setAll offs j vs).length = offs.length := by
  intro vs
  induction vs with
  | nil => intro offs j; rfl
  | cons v vs ih =>
    intro offs j
    simp only [setAll]
    rw [ih, List.length_set]

theorem put_ok_invariants (first : Int) (offsets : List Int) (d : NativeDisc)
    (h : put first offsets = .ok d) : discInvariants d := by
  obtain ⟨last, buf, hd, _⟩ := put_ok_inv first offsets d h
  obtain ⟨hdef, h1, h2, h3, h4, h5, h6⟩ := discid_put_some_inv first last buf d hd
  subst hdef
  exact ⟨h1, h2, h3, h4, tocSlice_length first last buf, h5, h6⟩

theorem parse_ok_inv (toc : String) (d : NativeDisc) (h : parse toc = .ok d) :
    ∃ f offs, put f offs = .ok d := by
  unfold parse at h
  cases hr : parseLoop (splitSp toc.toList) 0 1 1 (List.replicate 100 0) with
  | oob =>
    rw [hr] at h
    exact absurd h (by simp [parseFinish])
  | fail e =>
    rw [hr] at h
    exact absurd h (by simp [parseFinish])
  | res i f l offs =>
    rw [hr] at h
    simp only [parseFinish] at h
    by_cases h3 : i < 3
    · rw [if_pos h3] at h
      exact absurd h (by simp)
    · rw [if_neg h3] at h
      by_cases hm : wrap32 (l - f + 1) ≠ wrap32 ((i : Int) - 3)
      · rw [if_pos hm] at h
        exact absurd h (by simp)
      · rw [if_neg hm] at h
        by_cases ht : i - 2 ≤ offs.length
        · rw [if_pos ht] at h
          exact ⟨f, offs.take (i - 2), h⟩
        · rw [if_neg ht] at h
          exact absurd h (by simp)

/-! ## Claim C6: `nth_track` precondition -/

/-- C6: for every disc and every track number outside
`[first_track_num, last_track_num]`, `nth_track` fails fast with the
out-of-bounds panic whose message reports the given number and both
bounds, constructing no `Track`; for every number inside the range it
returns the `Track` for that number. -/
theorem c6_nth_track_range (d : NativeDisc) (n : Int) :
    (n < d.first ∨ n > d.last → nth_track d n = .aborted (oobTrackMsg n d.first d.last)) ∧
    (d.first ≤ n → n ≤ d.last → nth_track d n = .track (get_track d n)) := by
  constructor
  · intro h
    unfold nth_track
    rw [if_pos h]
  · intro h1 h2
    unfold nth_track
    rw [if_neg (by omega)]

theorem c6_witness :
    nth_track ⟨1, 2, 2000, [150, 1000]⟩ 5 = .aborted (oobTrackMsg 5 1 2) ∧
    nth_track ⟨1, 2, 2000, [150, 1000]⟩ 1
      = .track (get_track ⟨1, 2, 2000, [150, 1000]⟩ 1) :=
  ⟨(c6_nth_track_range ⟨1, 2, 2000, [150, 1000]⟩ 5).1 (Or.inr (by decide)),
    (c6_nth_track_range ⟨1, 2, 2000, [150, 1000]⟩ 1).2 (by decide) (by decide)⟩

/-! ## Claim C9: parse writes stay inside the 100-slot buffer -/

/-- C9: with the 100-element offsets buffer `parse` allocates, the token
loop never performs an out-of-bounds buffer write: the capacity guard
(rejecting position `i` when `i > last_track + 2` or `i > 101`) runs
before the write at index `i - 2`, so every executed write has index at
most 99 and the loop never reaches the out-of-bounds outcome, whatever
first/last track values were parsed from the string. -/
theorem c9_parse_writes_in_bounds : ∀ (ts : List (List Char)) (i : Nat) (f l : Int)
    (offs : List Int), offs.length = 100 → parseLoop ts i f l offs ≠ .oob :=
  parseLoop_ne_oob

theorem c9_witness :
    parseLoop (splitSp ("1 1 100 150" : String).toList) 0 1 1 (List.replicate 100 0) ≠ .oob :=
  c9_parse_writes_in_bounds (splitSp ("1 1 100 150" : String).toList) 0 1 1
    (List.replicate 100 0) (by simp)

/-! ## Claim C10: empty first token beats the too-few-fields check -/

/-- C10: parsing the empty string, or any string whose first
space-separated token is empty, fails with the integer-parse error for
an empty string (the NotANumber class), not with the too-few-fields
error: splitting on single spaces yields one empty token which fails
integer parsing before the token-count check runs. -/
theorem c10_empty_token_parse_error (toc : String)
    (h : (splitSp toc.toList).head? = some []) :
    parse toc = .err (intErr .empty) := by
  unfold parse
  cases hs : splitSp toc.toList with
  | nil =>
    rw [hs] at h
    exact absurd h (by simp)
  | cons t ts =>
    rw [hs] at h
    simp only [List.head?_cons, Option.some.injEq] at h
    subst h
    rw [parseLoop_cons_err [] ts 0 1 1 (List.replicate 100 0) IntErrKind.empty rfl]
    rfl

theorem c10_witness :
    (splitSp ("" : String).toList).head? = some [] ∧
    parse ("" : String) = .err (intErr .empty) :=
  ⟨rfl, c10_empty_token_parse_error ("" : String) rfl⟩

/-! ## Claim C1: the counterexample to abort-freedom -/

/-- C1 counterexample: `DiscId::put(2, &[])` takes the copy branch
(`first > 1` and computed `last = 0 <= 99`) and immediately indexes
`offsets[0]` on the empty slice — an index-out-of-bounds panic, i.e. a
process abort rather than a recoverable failure value. -/
theorem c1_counterexample : put 2 [] = .panicked := by decide

/-! ## Claim C3: construction-time validation invariants -/

/-- C3: every disc successfully constructed by `put` or by `parse`
satisfies the OffsetTable data-model invariants (first track in 1..=99,
last track in first..=99, positive total sectors, dense strictly
increasing per-track offsets each below the total); construction fails
for every input whose induced table violates any of them. -/
theorem c3_construction_invariants :
    (∀ (first : Int) (offsets : List Int) (d : NativeDisc),
      put first offsets = .ok d → discInvariants d) ∧
    (∀ (toc : String) (d : NativeDisc), parse toc = .ok d → discInvariants d) := by
  constructor
  · exact put_ok_invariants
  · intro toc d h
    obtain ⟨f, offs, h2⟩ := parse_ok_inv toc d h
    exact put_ok_invariants f offs d h2

theorem c3_witness :
    put 1 [2000, 150, 1000] = .ok ⟨1, 2, 2000, [150, 1000]⟩ ∧
    discInvariants ⟨1, 2, 2000, [150, 1000]⟩ :=
  ⟨by decide, c3_construction_invariants.1 1 [2000, 150, 1000] ⟨1, 2, 2000, [150, 1000]⟩
    (by decide)⟩

/-! ## Round-trip machinery for claim C2 -/

theorem put_ok_i32 (first : Int) (offsets : List Int) (d : NativeDisc)
    (hr : ∀ x ∈ offsets, i32min ≤ x ∧ x ≤ i32max)
    (h : put first offsets = .ok d) : discI32 d := by
  obtain ⟨last, buf, hd, hbuf⟩ := put_ok_inv first offsets d h
  obtain ⟨hdef, _, _, _, _, _, _⟩ := discid_put_some_inv first last buf d hd
  have hzero : i32min ≤ (0 : Int) ∧ (0 : Int) ≤ i32max := by
    simp only [i32min, i32max]
    omega
  have hbufR : ∀ j, i32min ≤ buf.getD j 0 ∧ buf.getD j 0 ≤ i32max := by
    intro j
    rcases getD_mem_or buf j with hm | hz
    · rcases hbuf _ hm with ho | hz2
      · exact hr _ ho
      · rw [hz2]
        exact hzero
    · rw [hz]
      exact hzero
  subst hdef
  refine ⟨(hbufR 0).1, (hbufR 0).2, ?_⟩
  intro x hx
  replace hx : x ∈ tocSlice first last buf := hx
  unfold tocSlice at hx
  obtain ⟨k, _, hk⟩ := List.mem_map.mp hx
  rw [← hk]
  exact hbufR _

theorem tokens_no_space (xs : List Int) : ∀ t ∈ xs.map intToDecChars, ' ' ∉ t := by
  intro t ht
  obtain ⟨x, _, hx⟩ := List.mem_map.mp ht
  rw [← hx]
  exact intToDecChars_no_space x

theorem put_reconstruct (d : NativeDisc) (hinv : discInvariants d) :
    put d.first (d.sectors :: d.trackOffsets) = .ok d := by
  obtain ⟨h1, h2, h3, h4, hlen, hinc, hall⟩ := hinv
  have hT : ((d.trackOffsets.length : Nat) : Int) = d.last - d.first + 1 := by
    rw [hlen]
    exact Int.toNat_of_nonneg (by omega)
  have hL : putLast d.first (d.trackOffsets.length + 1) = d.last := by
    unfold putLast
    rw [wrap32_eq_self ((d.trackOffsets.length + 1 : Nat) : Int)
      (by simp only [i32min]; push_cast; omega)
      (by simp only [i32max]; push_cast; omega)]
    have he : d.first + ((d.trackOffsets.length + 1 : Nat) : Int) - 2 = d.last := by
      push_cast
      omega
    rw [he]
    exact wrap32_eq_self d.last (by simp only [i32min]; omega) (by simp only [i32max]; omega)
  simp only [put]
  by_cases hf : d.first > 1
  · rw [if_pos ⟨hf, by rw [hL]; omega⟩]
    have hu1 : toUsize d.first = d.first.toNat := toUsize_eq_toNat _ (by omega) (by omega)
    have hu2 : toUsize (putLast d.first (d.trackOffsets.length + 1) + 1) = d.last.toNat + 1 := by
      rw [hL, toUsize_eq_toNat _ (by omega) (by omega)]
      omega
    have hca : toUsize d.first ≤ toUsize (putLast d.first (d.trackOffsets.length + 1) + 1) := by
      rw [hu1, hu2]
      omega
    have hcb : toUsize (putLast d.first (d.trackOffsets.length + 1) + 1) ≤ 100 := by
      rw [hu2]
      omega
    have hcc : toUsize (putLast d.first (d.trackOffsets.length + 1) + 1) - toUsize d.first
        = d.trackOffsets.length := by
      rw [hu1, hu2]
      omega
    rw [if_pos ⟨hca, hcb, hcc⟩]
    apply (mkPutResult_ok _ _).mpr
    rw [hL, hu1]
    have hbf0 : (buildFull d.sectors d.first.toNat d.trackOffsets).getD 0 0 = d.sectors := by
      rw [buildFull_getD _ _ _ 0 (by omega), if_neg (by rintro ⟨hc, _⟩; omega), if_pos rfl]
    have hbfs : tocSlice d.first d.last (buildFull d.sectors d.first.toNat d.trackOffsets)
        = d.trackOffsets := by
      unfold tocSlice
      rw [← hlen]
      have hpt : ∀ k ∈ List.range d.trackOffsets.length,
          (buildFull d.sectors d.first.toNat d.trackOffsets).getD (d.first.toNat + k) 0
            = d.trackOffsets.getD k 0 := by
        intro k hk
        rw [List.mem_range] at hk
        rw [buildFull_getD _ _ _ _ (by omega), if_pos ⟨by omega, by omega⟩]
        congr 1
        omega
      rw [List.map_congr_left hpt, range_map_getD]
    rw [discid_put_eq_some d.first d.last _ h1 h2 h3 (by rw [hbf0]; exact h4)
      (by rw [hbfs]; exact hinc) (by rw [hbfs, hbf0]; exact hall)]
    rw [hbf0, hbfs]
  · rw [if_neg (fun hc => hf hc.1)]
    apply (mkPutResult_ok _ _).mpr
    rw [hL]
    have hf1 : d.first = 1 := by omega
    have hg0 : (d.sectors :: d.trackOffsets).getD 0 0 = d.sectors := rfl
    have hslice : tocSlice d.first d.last (d.sectors :: d.trackOffsets) = d.trackOffsets := by
      unfold tocSlice
      rw [← hlen]
      have hpt : ∀ k ∈ List.range d.trackOffsets.length,
          (d.sectors :: d.trackOffsets).getD (d.first.toNat + k) 0
            = d.trackOffsets.getD k 0 := by
        intro k _
        have hidx : d.first.toNat + k = k + 1 := by
          rw [hf1]
          omega
        rw [hidx]
        exact List.getD_cons_succ
      rw [List.map_congr_left hpt, range_map_getD]
    rw [discid_put_eq_some d.first d.last _ h1 h2 h3 (by rw [hg0]; exact h4)
      (by rw [hslice]; exact hinc) (by rw [hslice, hg0]; exact hall)]
    rw [hg0, hslice]

theorem roundtrip_core (d : NativeDisc) (hinv : discInvariants d) (hrange : discI32 d) :
    parse (toc_string d) = .ok d := by
  obtain ⟨h1, h2, h3, h4, hlen, hinc, hall⟩ := hinv
  obtain ⟨hs1, hs2, hoff⟩ := hrange
  have hT : ((d.trackOffsets.length : Nat) : Int) = d.last - d.first + 1 := by
    rw [hlen]
    exact Int.toNat_of_nonneg (by omega)
  have htoc : (toc_string d).toList
      = joinSp (([d.first, d.last, d.sectors] ++ d.trackOffsets).map intToDecChars) := rfl
  unfold parse
  rw [htoc, splitSp_joinSp _ (by simp) (tokens_no_space _)]
  have htok : ([d.first, d.last, d.sectors] ++ d.trackOffsets).map intToDecChars
      = intToDecChars d.first :: intToDecChars d.last :: intToDecChars d.sectors
        :: d.trackOffsets.map intToDecChars := by
    simp
  rw [htok]
  rw [parseLoop_cons_zero _ _ 1 1 _ d.first
    (parseI32_intToDec d.first (by simp only [i32min]; omega) (by simp only [i32max]; omega))]
  rw [parseLoop_cons_one _ _ d.first 1 _ d.last
    (parseI32_intToDec d.last (by simp only [i32min]; omega) (by simp only [i32max]; omega))]
  rw [parseLoop_cons_big _ _ 2 d.first d.last _ d.sectors
    (parseI32_intToDec d.sectors hs1 hs2) (by omega)]
  have hg : ¬(2 > (toUsize d.last + 2) % 2 ^ 64 ∨ 2 > 99 + 2) := by
    rw [toUsize_eq_toNat d.last (by omega) (by omega), Nat.mod_eq_of_lt (by omega)]
    omega
  rw [if_neg hg, if_pos (by simp)]
  have hset : (List.replicate 100 (0 : Int)).set (2 - 2) d.sectors
      = d.sectors :: List.replicate 99 0 := rfl
  rw [hset]
  rw [parseLoop_run_offsets d.trackOffsets 3 d.first d.last (d.sectors :: List.replicate 99 0)
    (by omega) (by omega) h3 (by push_cast; omega) (by simp) hoff]
  simp only [parseFinish]
  rw [if_neg (by omega : ¬ 3 + d.trackOffsets.length < 3)]
  have hw1 : wrap32 (d.last - d.first + 1) = d.last - d.first + 1 :=
    wrap32_eq_self _ (by simp only [i32min]; omega) (by simp only [i32max]; omega)
  have hw2 : wrap32 (((3 + d.trackOffsets.length : Nat) : Int) - 3) = d.last - d.first + 1 := by
    have he : ((3 + d.trackOffsets.length : Nat) : Int) - 3 = d.last - d.first + 1 := by
      push_cast
      omega
    rw [he]
    exact hw1
  have hcnd : ¬(wrap32 (d.last - d.first + 1)
      ≠ wrap32 (((3 + d.trackOffsets.length : Nat) : Int) - 3)) := by
    rw [hw1, hw2]
    exact not_ne_iff.mpr rfl
  rw [if_neg hcnd]
  rw [if_pos (by
    rw [setAll_length]
    simp only [List.length_cons, List.length_replicate]
    omega)]
  have h32 : (3 : Nat) - 2 = 1 := rfl
  have hta : 3 + d.trackOffsets.length - 2 = 1 + d.trackOffsets.length := by omega
  rw [h32, hta]
  rw [setAll_take d.trackOffsets (d.sectors :: List.replicate 99 0) 1 (by
    simp only [List.length_cons, List.length_replicate]
    omega)]
  have htake1 : (d.sectors :: List.replicate 99 (0 : Int)).take 1 = [d.sectors] := rfl
  rw [htake1, List.singleton_append]
  exact put_reconstruct d ⟨h1, h2, h3, h4, hlen, hinc, hall⟩

/-! ## Claim C2: the TOC-string round-trip -/

/-- C2: for every disc successfully built by `put` from an `i32`-valued
offsets slice, parsing its canonical TOC-string serialization succeeds
and yields an equal disc — agreeing on first track, last track, total
sectors, and every per-track offset. -/
theorem c2_roundtrip (first : Int) (offsets : List Int) (d : NativeDisc)
    (hr : ∀ x ∈ offsets, i32min ≤ x ∧ x ≤ i32max)
    (h : put first offsets = .ok d) :
    parse (toc_string d) = .ok d :=
  roundtrip_core d (put_ok_invariants first offsets d h) (put_ok_i32 first offsets d hr h)

theorem c2_witness :
    put 1 [2000, 150, 1000] = .ok ⟨1, 2, 2000, [150, 1000]⟩ ∧
    parse (toc_string ⟨1, 2, 2000, [150, 1000]⟩) = .ok ⟨1, 2, 2000, [150, 1000]⟩ :=
  ⟨by decide, c2_roundtrip 1 [2000, 150, 1000] ⟨1, 2, 2000, [150, 1000]⟩ (by decide) (by decide)⟩

theorem tracks_length (d : NativeDisc) : (tracks d).length = (d.last - d.first + 1).toNat := by
  unfold tracks
  rw [List.length_map, List.length_range]

theorem tracks_numbers (d : NativeDisc) :
    (tracks d).map Track.number
      = (List.range (d.last - d.first + 1).toNat).map (fun (k : Nat) => d.first + (k : Int)) := by
  simp only [tracks, List.map_map]
  rfl

/-! ## Claim C8: track count and numbering for `first == 1` -/

/-- C8 counterexample: a slice of `2^32 + 3` elements is accepted by
`put` with `first == 1` — the `offsets.len() as c_int` cast wraps to 3,
so the engine sees a two-track TOC — but `last_track_num` is 2, not
`len(offsets) - 1`. -/
theorem c8_counterexample :
    put 1 (100 :: 10 :: 20 :: List.replicate (2 ^ 32) 0) = .ok ⟨1, 2, 100, [10, 20]⟩ ∧
    ¬ last_track_num ⟨1, 2, 100, [10, 20]⟩
        = (((100 :: 10 :: 20 :: List.replicate (2 ^ 32) (0 : Int)).length : Nat) : Int) - 1 := by
  constructor
  · simp only [put]
    have hrl : ((10 : Int) :: 20 :: List.replicate (2 ^ 32) 0).length = 2 ^ 32 + 2 := by
      rw [List.length_cons, List.length_cons, List.length_replicate]
    rw [hrl]
    have hL2 : putLast 1 (2 ^ 32 + 2 + 1) = 2 := by decide
    rw [hL2, if_neg (by rintro ⟨hc, _⟩; omega)]
    apply (mkPutResult_ok _ _).mpr
    rw [discid_put_eq_some 1 2 _ (by omega) (by omega) (by omega)
      (by decide) (by decide) (by decide)]
    exact rfl
  · simp only [last_track_num]
    have hrl2 : ((100 : Int) :: 10 :: 20 :: List.replicate (2 ^ 32) 0).length = 2 ^ 32 + 3 := by
      rw [List.length_cons, List.length_cons, List.length_cons, List.length_replicate]
    rw [hrl2]
    decide

/-- C8 (amended): for every offsets slice whose length fits in `i32`
(which covers the documented bound of at most 100 elements) accepted by
`put` with `first_track == 1`, the disc reports
`last_track_num = len(offsets) - 1`, and `tracks` yields exactly
`last_track_num` elements numbered `1, 2, ..., last_track_num` in
increasing order. -/
theorem c8_put_first_one (offsets : List Int) (d : NativeDisc)
    (hlen : (offsets.length : Int) ≤ i32max)
    (h : put 1 offsets = .ok d) :
    last_track_num d = (offsets.length : Int) - 1 ∧
    (tracks d).length = (last_track_num d).toNat ∧
    (tracks d).map Track.number
      = (List.range (last_track_num d).toNat).map (fun (k : Nat) => (1 : Int) + k) := by
  cases offsets with
  | nil =>
    simp only [put] at h
    rw [if_neg (by rintro ⟨hc, _⟩; omega)] at h
    have hd := (mkPutResult_ok _ _).mp h
    obtain ⟨_, _, hh2, _⟩ := discid_put_some_inv _ _ _ _ hd
    have hm1 : putLast 1 0 = -1 := by decide
    rw [hm1] at hh2
    exact absurd hh2 (by omega)
  | cons o0 rest =>
    simp only [put] at h
    rw [if_neg (by rintro ⟨hc, _⟩; omega)] at h
    have hd := (mkPutResult_ok _ _).mp h
    obtain ⟨hdef, _, hh2, hh3, _⟩ := discid_put_some_inv _ _ _ _ hd
    have hlen2 : ((rest.length : Nat) : Int) ≤ i32max - 1 := by
      simp only [List.length_cons] at hlen
      push_cast at hlen ⊢
      omega
    have hL : putLast 1 (rest.length + 1) = (rest.length : Int) := by
      unfold putLast
      rw [wrap32_eq_self ((rest.length + 1 : Nat) : Int)
        (by simp only [i32min]; push_cast; omega)
        (by omega)]
      have he : (1 : Int) + ((rest.length + 1 : Nat) : Int) - 2 = (rest.length : Int) := by
        push_cast
        ring
      rw [he]
      exact wrap32_eq_self _ (by simp only [i32min]; push_cast; omega)
        (by omega)
    rw [hL] at hdef hh2 hh3
    have hfst : d.first = 1 := by rw [hdef]
    have hlst : d.last = (rest.length : Int) := by rw [hdef]
    refine ⟨?_, ?_, ?_⟩
    · simp only [last_track_num]
      rw [hlst]
      simp only [List.length_cons]
      push_cast
      ring
    · rw [tracks_length]
      simp only [last_track_num]
      rw [hfst, hlst]
      omega
    · rw [tracks_numbers]
      simp only [last_track_num]
      rw [hfst, hlst]
      have he2 : (rest.length : Int) - 1 + 1 = (rest.length : Int) := by ring
      rw [he2]

theorem c8_witness :
    last_track_num ⟨1, 2, 2000, [150, 1000]⟩
        = (([2000, 150, 1000] : List Int).length : Int) - 1 ∧
    (tracks ⟨1, 2, 2000, [150, 1000]⟩).length
        = (last_track_num ⟨1, 2, 2000, [150, 1000]⟩).toNat ∧
    (tracks ⟨1, 2, 2000, [150, 1000]⟩).map Track.number
      = (List.range (last_track_num ⟨1, 2, 2000, [150, 1000]⟩).toNat).map
          (fun (k : Nat) => (1 : Int) + k) :=
  c8_put_first_one [2000, 150, 1000] ⟨1, 2, 2000, [150, 1000]⟩ (by decide) (by decide)

/-! ## Claim C4: the offset-count-mismatch error -/

theorem mismatchMsg_ne_illegal (a b : Int) : mismatchMsg a b ≠ illegalLimitsMsg := by
  intro h
  have hA : 0 < (intToDecChars a).length := List.length_pos.mpr (intToDecChars_ne_nil a)
  have hB : 0 < (intToDecChars b).length := List.length_pos.mpr (intToDecChars_ne_nil b)
  have hdata : "Number of offsets ".toList ++ intToDecChars a
      ++ " does not match track count ".toList ++ intToDecChars b
      = ("Illegal track limits" : String).data := congrArg String.data h
  have hlen := congrArg List.length hdata
  simp only [List.length_append] at hlen
  rw [show ("Number of offsets ".toList).length = 18 from by decide,
    show (" does not match track count ".toList).length = 28 from by decide,
    show (("Illegal track limits" : String).data).length = 20 from by decide] at hlen
  omega

/-- C4 counterexample: for `parse ("3 5 100 200")` the expected offset
count is `last - first + 1 = 3`, but the reported message is
"Number of offsets 1 does not match track count 5": it carries the
actual count (1) and the last track number (5), not the expected count
(3), which appears nowhere in the message. -/
theorem c4_counterexample :
    parse ("3 5 100 200") = .err ⟨mismatchMsg 1 5⟩ ∧
    ¬ '3' ∈ (mismatchMsg 1 5).toList := by decide

/-- C4 (amended): once the token loop completes with at least three
tokens, `parse` fails with the offset-count-mismatch error exactly when
the wrapped i32 value of `last_track - first_track + 1` differs from
the number of offset tokens; the reported error carries the actual
offset count and the last track number — which equals the expected
count `last - first + 1` only when `first_track = 1`. -/
theorem c4_mismatch_exact (toc : String) (i : Nat) (f l : Int) (offs : List Int)
    (h : parseLoop (splitSp toc.toList) 0 1 1 (List.replicate 100 0) = .res i f l offs)
    (h3 : 3 ≤ i) :
    parse toc = .err ⟨mismatchMsg (wrap32 ((i : Int) - 3)) l⟩
      ↔ wrap32 (l - f + 1) ≠ wrap32 ((i : Int) - 3) := by
  unfold parse
  rw [h]
  simp only [parseFinish]
  rw [if_neg (by omega)]
  by_cases hm : wrap32 (l - f + 1) ≠ wrap32 ((i : Int) - 3)
  · rw [if_pos hm]
    simp [hm]
  · rw [if_neg hm]
    constructor
    · intro hput
      exfalso
      by_cases ht : i - 2 ≤ offs.length
      · rw [if_pos ht] at hput
        have he := put_err_reason f (offs.take (i - 2)) _ hput
        have : mismatchMsg (wrap32 ((i : Int) - 3)) l = illegalLimitsMsg := by
          injection he
        exact mismatchMsg_ne_illegal _ _ this
      · rw [if_neg ht] at hput
        exact absurd hput (by simp)
    · intro hc
      exact absurd hc hm

theorem c4_witness : parse ("1 2 242457 150") = .err ⟨mismatchMsg 1 2⟩ := by
  have h := (c4_mismatch_exact ("1 2 242457 150") 4 1 2
    ((List.replicate 100 0).set 0 242457 |>.set 1 150) (by decide) (by omega)).mpr (by decide)
  rw [show wrap32 (((4 : Nat) : Int) - 3) = 1 from by decide] at h
  exact h

/-! ## Claim C5: capacity and track-range rejection -/

/-- C5 counterexample: `put(2147483549, &[0; 101])` has 101 elements and
a mathematical last track beyond 99, but the i32 computation of
`last` overflows to `-2^31 <= 99`, the copy branch is taken, and the
slice assignment panics (range end out of bounds) — the call aborts
instead of failing with a range/capacity error. -/
theorem c5_counterexample : put 2147483549 (List.replicate 101 0) = .panicked := by decide

/-- C5 (amended): provided `first + len(offsets)` stays within i32 (no
overflow in the `last` computation), every `put` call whose last track
`first + len - 2` exceeds 99 or whose offsets slice has more than 100
elements fails with the engine's range error and never succeeds, not
even partially; when the computation overflows, the call aborts instead
(see the counterexample). -/
theorem c5_capacity_rejected (first : Int) (offsets : List Int)
    (hnof : first + (offsets.length : Int) ≤ 2 ^ 31 + 1)
    (hbad : 99 < first + (offsets.length : Int) - 2 ∨ 100 < offsets.length) :
    put first offsets = .err ⟨illegalLimitsMsg⟩ := by
  cases offsets with
  | nil =>
    simp only [List.length_nil, Nat.cast_zero, Nat.cast_ofNat] at hnof hbad
    have hfirst : 101 < first := by omega
    have hpl : putLast first 0 = first - 2 := by
      simp only [putLast, wrap32]
      push_cast
      omega
    simp only [put]
    rw [if_neg (by rw [hpl]; omega)]
    have hnone : discid_put first (putLast first 0) [] = none := by
      unfold discid_put
      rw [if_neg (by rw [hpl]; omega)]
    rw [hnone]
    rfl
  | cons o0 rest =>
    simp only [List.length_cons] at hnof hbad
    push_cast at hnof hbad
    by_cases hf : first > 1
    · have hL : putLast first (rest.length + 1) = first + (rest.length : Int) + 1 - 2 := by
        simp only [putLast, wrap32]
        push_cast
        omega
      have hLbig : 99 < putLast first (rest.length + 1) := by
        rw [hL]
        omega
      simp only [put]
      rw [if_neg (by omega)]
      have hnone : discid_put first (putLast first (rest.length + 1)) (o0 :: rest) = none := by
        unfold discid_put
        rw [if_neg (by omega)]
      rw [hnone]
      rfl
    · simp only [put]
      rw [if_neg (fun hc => hf hc.1)]
      have hnone : discid_put first (putLast first (rest.length + 1)) (o0 :: rest) = none := by
        unfold discid_put
        rw [if_neg (by
          simp only [putLast, wrap32]
          push_cast
          omega)]
      rw [hnone]
      rfl

theorem c5_witness : put 1 (List.replicate 101 0) = .err ⟨illegalLimitsMsg⟩ :=
  c5_capacity_rejected 1 (List.replicate 101 0) (by decide) (by decide)

/-! ## Claim C7: the NotANumber error and its payload -/

/-- C7 counterexample: for `parse ("1 2 242457 150 x")` the offending
token is `"x"`, but the returned error reason is the plain
`ParseIntError` description "invalid digit found in string", which does
not contain the token. -/
theorem c7_counterexample :
    parse ("1 2 242457 150 x") = .err (intErr .invalidDigit) ∧
    ¬ 'x' ∈ (parseIntErrMsg .invalidDigit).toList := by decide

/-- C7 (amended): `parse` splits its input on single spaces and
processes tokens in order, integer-parsing each token before any index
bookkeeping; at the first token that fails signed-integer parsing it
returns the error whose reason is the `ParseIntError` description of
the failure kind — the offending token itself is not carried. -/
theorem c7_first_bad_token (toc : String) :
    (∀ (t : List Char) (ts : List (List Char)) (k : IntErrKind),
      splitSp toc.toList = t :: ts → parseI32 t = .error k → parse toc = .err (intErr k)) ∧
    (∀ (t : List Char) (rest : List (List Char)) (i : Nat) (f l : Int) (offs : List Int)
      (k : IntErrKind),
      parseI32 t = .error k → parseLoop (t :: rest) i f l offs = .fail (intErr k)) := by
  constructor
  · intro t ts k hs hp
    unfold parse
    rw [hs, parseLoop_cons_err t ts 0 1 1 (List.replicate 100 0) k hp]
    rfl
  · intro t rest i f l offs k hp
    exact parseLoop_cons_err t rest i f l offs k hp

theorem c7_witness :
    parse ("x 2 3") = .err (intErr .invalidDigit) ∧
    parseLoop [['x']] 7 1 1 (List.replicate 100 0) = .fail (intErr .invalidDigit) :=
  ⟨(c7_first_bad_token ("x 2 3")).1 ['x'] [['2'], ['3']] .invalidDigit (by decide) rfl,
    (c7_first_bad_token ("x 2 3")).2 ['x'] [] 7 1 1 (List.replicate 100 0) .invalidDigit rfl⟩

/-! ## Claim C1: recoverable failure on every construction path -/

theorem splitSp_ne_nil : ∀ (l : List Char), splitSp l ≠ [] := by
  intro l
  cases l with
  | nil => simp [splitSp]
  | cons c cs =>
    rw [splitSp_cons]
    by_cases hc : c = ' '
    · rw [if_pos hc]
      simp
    · rw [if_neg hc]
      cases splitSp cs <;> simp

theorem put_ne_panicked (first : Int) (offsets : List Int) (h0 : offsets ≠ [])
    (h1 : first + (offsets.length : Int) ≤ 2 ^ 31 + 1) : put first offsets ≠ .panicked := by
  cases offsets with
  | nil => exact absurd rfl h0
  | cons o0 rest =>
    simp only [List.length_cons] at h1
    push_cast at h1
    simp only [put]
    by_cases hf : first > 1
    · have hL : putLast first (rest.length + 1) = first + (rest.length : Int) + 1 - 2 := by
        simp only [putLast, wrap32]
        push_cast
        omega
      by_cases hlast : putLast first (rest.length + 1) ≤ 99
      · rw [if_pos ⟨hf, hlast⟩]
        rw [hL] at hlast
        have hu1 : toUsize first = first.toNat := toUsize_eq_toNat first (by omega) (by omega)
        have hu2 : toUsize (putLast first (rest.length + 1) + 1)
            = (putLast first (rest.length + 1) + 1).toNat := by
          rw [hL]
          exact toUsize_eq_toNat _ (by omega) (by omega)
        rw [if_pos ⟨by rw [hu1, hu2, hL]; omega, by rw [hu2, hL]; omega,
          by rw [hu1, hu2, hL]; omega⟩]
        exact mkPutResult_ne_panicked _
      · rw [if_neg (fun hc => hlast hc.2)]
        exact mkPutResult_ne_panicked _
    · rw [if_neg (fun hc => hf hc.1)]
      exact mkPutResult_ne_panicked _

theorem parse_ne_panicked (toc : String)
    (hft : ∀ (t : List Char) (ts : List (List Char)) (v : Int),
      splitSp toc.toList = t :: ts → parseI32 t = .ok v → v ≤ 2 ^ 31 - 99) :
    parse toc ≠ .panicked := by
  unfold parse
  cases hr : parseLoop (splitSp toc.toList) 0 1 1 (List.replicate 100 0) with
  | oob => exact absurd hr (parseLoop_ne_oob _ _ _ _ _ (by simp))
  | fail e => simp [parseFinish]
  | res i f l offs =>
    simp only [parseFinish]
    by_cases h3 : i < 3
    · rw [if_pos h3]
      simp
    · rw [if_neg h3]
      by_cases hm : wrap32 (l - f + 1) ≠ wrap32 ((i : Int) - 3)
      · rw [if_pos hm]
        simp
      · rw [if_neg hm]
        obtain ⟨hlen, _, _⟩ := parseLoop_res_inv _ _ _ _ _ _ _ _ _ hr
        have hi102 : i ≤ 102 := parseLoop_res_i_le _ _ _ _ _ _ _ _ _ (by omega) hr
        have hlen100 : offs.length = 100 := by
          rw [hlen]
          simp
        rw [if_pos (by rw [hlen100]; omega)]
        obtain ⟨t, ts, hsp⟩ : ∃ t ts, splitSp toc.toList = t :: ts := by
          cases hsp : splitSp toc.toList with
          | nil => exact absurd hsp (splitSp_ne_nil _)
          | cons t ts => exact ⟨t, ts, rfl⟩
        rw [hsp] at hr
        have hpt : parseI32 t = .ok f := parseLoop_first_tok t ts 1 1 _ i f l offs hr
        have hfb : f ≤ 2 ^ 31 - 99 := hft t ts f hsp hpt
        have hflow : i32min ≤ f := (parseI32_ok_range t f hpt).1
        have htl : (offs.take (i - 2)).length = i - 2 := by
          rw [List.length_take, hlen100]
          omega
        apply put_ne_panicked
        · intro hnil
          rw [hnil] at htl
          simp at htl
          omega
        · rw [htl]
          omega

/-- C1 (amended): construction paths return a recoverable value rather
than aborting, except for the panics exhibited by the counterexample
family: `put` never aborts when the offsets slice is non-empty and
`first + len(offsets)` does not overflow i32; `parse` never aborts when
its first token does not parse to a value above `2^31 - 99` (beyond
which the handed-down `put` call's wrapped arithmetic can take the copy
branch and panic); `read`/`read_features` never abort when the device
string contains no NUL byte. -/
theorem c1_no_abort :
    (∀ (first : Int) (offsets : List Int), offsets ≠ [] →
      first + (offsets.length : Int) ≤ 2 ^ 31 + 1 → put first offsets ≠ .panicked) ∧
    (∀ toc : String, (∀ (t : List Char) (ts : List (List Char)) (v : Int),
      splitSp toc.toList = t :: ts → parseI32 t = .ok v → v ≤ 2 ^ 31 - 99) →
      parse toc ≠ .panicked) ∧
    (∀ (eng : Engine) (device : Option (List Char)) (features : Nat),
      (∀ s, device = some s → Char.ofNat 0 ∉ s) →
      read_features eng device features ≠ .panicked ∧ read eng device ≠ .panicked) := by
  refine ⟨put_ne_panicked, parse_ne_panicked, ?_⟩
  intro eng device features h
  have hrf : ∀ ft : Nat, read_features eng device ft ≠ .panicked := by
    intro ft
    cases device with
    | none =>
      simp only [read_features]
      cases eng.read_ok <;> simp
    | some s =>
      simp only [read_features]
      rw [if_neg (h s rfl)]
      cases eng.read_ok <;> simp
  exact ⟨hrf features, hrf featureRead⟩

theorem c1_witness :
    put 1 [2000, 150, 1000] ≠ .panicked ∧
    parse ("1 1 100 150") ≠ .panicked ∧
    read_features ⟨true, ⟨1, 1, 100, [50]⟩, ""⟩ (some ['a']) 1 ≠ .panicked :=
  ⟨c1_no_abort.1 1 [2000, 150, 1000] (by decide) (by decide),
    c1_no_abort.2.1 ("1 1 100 150") (fun t ts v hs hp => by
      rw [show splitSp ("1 1 100 150" : String).toList
        = [['1'], ['1'], ['1', '0', '0'], ['1', '5', '0']] from by decide] at hs
      injection hs with h1 _
      rw [← h1] at hp
      rw [show parseI32 ['1'] = .ok 1 from rfl] at hp
      injection hp with h2
      rw [← h2]
      decide),
    (c1_no_abort.2.2 ⟨true, ⟨1, 1, 100, [50]⟩, ""⟩ (some ['a']) 1 (fun s hsome => by
      injection hsome with h
      rw [← h]
      decide)).1⟩

end Discid
